import Mathlib

/-!
Verification development for the cmpe492 price-index core.

The Go sources are shallowly embedded: IEEE-754 `float64` is modelled by
`F64` (NaN, signed infinity, or an exact rational standing for a finite
double; rounding and overflow of finite arithmetic are not modelled),
stateful loops become folds with explicit accumulators, and the goroutine
session loops become step functions from events to effect lists.
-/

namespace PriceIx

/-- Shallow model of a Go `float64`: NaN, a signed infinity
(`inf true` is positive infinity), or an exact finite value. -/
inductive F64 where
  | nan : F64
  | inf : Bool → F64
  | fin : ℚ → F64
deriving DecidableEq, Repr

/-- Model of Go `math.IsNaN`. -/
def F64.isNaN : F64 → Bool
  | .nan => true
  | _ => false

/-- Model of Go `math.IsInf(x, 0) == false && !IsNaN(x)`, i.e. finiteness. -/
def F64.isFinite : F64 → Bool
  | .fin _ => true
  | _ => false

/-- IEEE addition on the model: NaN propagates, opposite infinities give NaN. -/
def F64.add : F64 → F64 → F64
  | .nan, _ => .nan
  | _, .nan => .nan
  | .inf s, .inf t => if s = t then .inf s else .nan
  | .inf s, .fin _ => .inf s
  | .fin _, .inf t => .inf t
  | .fin a, .fin b => .fin (a + b)

/-- IEEE multiplication on the model: NaN propagates, `inf * 0` is NaN. -/
def F64.mul : F64 → F64 → F64
  | .nan, _ => .nan
  | _, .nan => .nan
  | .inf s, .inf t => .inf (s = t)
  | .inf s, .fin b => if b = 0 then .nan else .inf (s = decide (0 < b))
  | .fin a, .inf t => if a = 0 then .nan else .inf (t = decide (0 < a))
  | .fin a, .fin b => .fin (a * b)

/-- IEEE division on the model: NaN propagates, `inf/inf` and `0/0` are NaN,
`x/0` for `x ≠ 0` is a signed infinity (the model has a single zero),
`finite/inf` is zero. -/
def F64.div : F64 → F64 → F64
  | .nan, _ => .nan
  | _, .nan => .nan
  | .inf _, .inf _ => .nan
  | .inf s, .fin b => if b < 0 then .inf (!s) else .inf s
  | .fin _, .inf _ => .fin 0
  | .fin a, .fin b =>
      if b = 0 then (if a = 0 then .nan else .inf (decide (0 < a)))
      else .fin (a / b)

/-- IEEE strict less-than on the model: any comparison with NaN is false. -/
def F64.lt : F64 → F64 → Bool
  | .nan, _ => false
  | _, .nan => false
  | .inf s, .inf t => !s && t
  | .inf s, .fin _ => !s
  | .fin _, .inf t => t
  | .fin a, .fin b => decide (a < b)

/-- Number of exchange rows of the lattice (`schema.NUM_EXCHANGES`). -/
abbrev NUM_EXCHANGES : Nat := 8

/-- Number of symbol columns of the lattice (`NUM_SYMBOLS` in `main.go`). -/
abbrev NUM_SYMBOLS : Nat := 128

/-- Lattice cell, after `schema.TickerData` as used by the current
`main.go` (four fields; the spec lists them as bid, ask, bid_qty, ask_qty). -/
structure TickerData where
  Bid : F64
  Ask : F64
  BidQty : F64
  AskQty : F64
deriving DecidableEq, Repr

/-- The all-NaN cell the supervisor writes at startup. -/
def nanTicker : TickerData := ⟨.nan, .nan, .nan, .nan⟩

/-- Index slot, after the `PriceIndex` struct in `main.go`. -/
structure PriceIndexData where
  Val : F64
  Cnt : Int
  BidVWAP : F64
  BidQtyTotal : F64
  AskVWAP : F64
  AskQtyTotal : F64
deriving DecidableEq, Repr

/-- Shared-memory layout, after `ShmLayout` in `main.go`: the ticker lattice
indexed `[exchange][symbol]` and the per-symbol index vector. -/
structure ShmLayout where
  Tickers : Fin NUM_EXCHANGES → Fin NUM_SYMBOLS → TickerData
  PriceIndices : Fin NUM_SYMBOLS → PriceIndexData

/-- Per-exchange default weight profile, after `initWeights` in `main.go`
(order: Binance, Bybit, Coinbase, Gateio, HTX, Kucoin, Mexc, OKX). -/
def defaultWeights : Fin NUM_EXCHANGES → F64 :=
  ![.fin (40/100), .fin (75/1000), .fin (72/1000), .fin (74/1000),
    .fin (68/1000), .fin (70/1000), .fin (10/100), .fin (5/100)]

/-- The weight matrix after `initWeights`: every symbol row gets the same
default vector. -/
def initWeights : Fin NUM_SYMBOLS → Fin NUM_EXCHANGES → F64 :=
  fun _ => defaultWeights

/-- Accumulator of the first pass of `ShmLayout.UpdatePriceIndex`,
one field per local variable of the Go function. -/
structure Pass1Acc where
  weightedMidPrice : F64
  totalWeight : F64
  bidQtyTotal : F64
  askQtyTotal : F64
  bidNotTotal : F64
  askNotTotal : F64
  numValidExchanges : Int
  qtyPerExchange : Fin NUM_EXCHANGES → F64

/-- Initial accumulator: Go zero-initializes every local to `0.0`
(and `qtyPerExchange` to an all-zero array). -/
def pass1Init : Pass1Acc :=
  { weightedMidPrice := .fin 0
    totalWeight := .fin 0
    bidQtyTotal := .fin 0
    askQtyTotal := .fin 0
    bidNotTotal := .fin 0
    askNotTotal := .fin 0
    numValidExchanges := 0
    qtyPerExchange := fun _ => .fin 0 }

/-- One iteration of the first pass of `UpdatePriceIndex` for exchange row
`i`: reset `qtyPerExchange[i]`, count the row if all four fields are
non-NaN, and if additionally `bidQty + askQty > 0` accumulate quantities,
notionals and the weighted mid-price. -/
def pass1Step (w : Fin NUM_EXCHANGES → F64) (col : Fin NUM_EXCHANGES → TickerData)
    (acc : Pass1Acc) (i : Fin NUM_EXCHANGES) : Pass1Acc :=
  let t := col i
  let acc0 := { acc with qtyPerExchange := Function.update acc.qtyPerExchange i (.fin 0) }
  if !t.Bid.isNaN && !t.Ask.isNaN && !t.BidQty.isNaN && !t.AskQty.isNaN then
    let acc1 := { acc0 with numValidExchanges := acc0.numValidExchanges + 1 }
    let totalQty := t.BidQty.add t.AskQty
    if F64.lt (.fin 0) totalQty then
      { acc1 with
        qtyPerExchange := Function.update acc1.qtyPerExchange i totalQty
        bidQtyTotal := acc1.bidQtyTotal.add t.BidQty
        askQtyTotal := acc1.askQtyTotal.add t.AskQty
        bidNotTotal := acc1.bidNotTotal.add (t.BidQty.mul t.Bid)
        askNotTotal := acc1.askNotTotal.add (t.AskQty.mul t.Ask)
        weightedMidPrice :=
          acc1.weightedMidPrice.add (((t.Bid.add t.Ask).div (.fin 2)).mul (w i))
        totalWeight := acc1.totalWeight.add (w i) }
    else acc1
  else acc0

/-- First pass of `UpdatePriceIndex`: fold over the eight exchange rows. -/
def pass1 (w : Fin NUM_EXCHANGES → F64) (col : Fin NUM_EXCHANGES → TickerData) : Pass1Acc :=
  (List.finRange NUM_EXCHANGES).foldl (pass1Step w col) pass1Init

/-- Second pass of `UpdatePriceIndex`: EMA weight adaptation. Each row with
positive observed liquidity moves its weight towards its liquidity share;
rows write only their own entry, so the sequential Go loop is pointwise. -/
def pass2 (acc : Pass1Acc) (w : Fin NUM_EXCHANGES → F64) : Fin NUM_EXCHANGES → F64 :=
  fun i =>
    if F64.lt (.fin 0) (acc.qtyPerExchange i) then
      let qtyRatio := (acc.qtyPerExchange i).div (acc.bidQtyTotal.add acc.askQtyTotal)
      ((F64.fin (99/100)).mul (w i)).add ((F64.fin (1/100)).mul qtyRatio)
    else w i

/-- Commit step of `UpdatePriceIndex`: on `totalWeight > 0` write every
field of the index slot; otherwise write only `Val := NaN`. -/
def commit (acc : Pass1Acc) (prev : PriceIndexData) : PriceIndexData :=
  if F64.lt (.fin 0) acc.totalWeight then
    { Val := acc.weightedMidPrice.div acc.totalWeight
      Cnt := acc.numValidExchanges
      AskQtyTotal := acc.askQtyTotal
      BidQtyTotal := acc.bidQtyTotal
      AskVWAP := acc.askNotTotal.div acc.askQtyTotal
      BidVWAP := acc.bidNotTotal.div acc.bidQtyTotal }
  else { prev with Val := .nan }

/-- Full `ShmLayout.UpdatePriceIndex symIx`, with the global weight matrix
threaded explicitly: returns the updated layout and the updated weights. -/
def UpdatePriceIndex (s : ShmLayout) (weights : Fin NUM_SYMBOLS → Fin NUM_EXCHANGES → F64)
    (symIx : Fin NUM_SYMBOLS) :
    ShmLayout × (Fin NUM_SYMBOLS → Fin NUM_EXCHANGES → F64) :=
  let col := fun i => s.Tickers i symIx
  let acc := pass1 (weights symIx) col
  let newRow := pass2 acc (weights symIx)
  ({ s with PriceIndices :=
      Function.update s.PriceIndices symIx (commit acc (s.PriceIndices symIx)) },
   Function.update weights symIx newRow)

/-! Session layer (package `ws`, `connect.go`). Each venue session is a
read loop; one loop iteration is embedded as a step function from an event
(a read error, or a decoded message) to the list of observable effects it
performs, in order. An `Option` result models Go panics: `none` is a panic
of the loop body. -/

/-- Observable effect of one session-loop iteration. -/
inductive Effect where
  | writeCell : Nat → TickerData → Effect
  | sendUpdate : Nat → Effect
  | pong : Int → Effect
  | sleepMs : Nat → Effect
  | redial : Effect
  | logError : Effect
deriving DecidableEq, Repr

/-- Effect of one iteration on the lattice row owned by the session: only
`writeCell` mutates a cell, every other effect leaves the row unchanged. -/
def applyEffect (lat : Nat → TickerData) : Effect → (Nat → TickerData)
  | .writeCell slot t => Function.update lat slot t
  | _ => lat

/-- Effect of a whole iteration's effect list on the session's lattice row. -/
def applyEffects (lat : Nat → TickerData) (effs : List Effect) : Nat → TickerData :=
  effs.foldl applyEffect lat

/-- One input to a session loop iteration: either `conn.ReadMessage`
returned an error (read error or server-side close), or it returned a frame
already decoded into the venue's message type `M`. -/
inductive SessionEvent (M : Type) where
  | readError : SessionEvent M
  | message : M → SessionEvent M

/-- Binance book-ticker message, after `schema.BinanceTicker`: the string
price and size fields `b`, `B`, `a`, `A` are abstracted to their
`strconv.ParseFloat` values. -/
structure BinanceTicker where
  s : String
  b : F64
  bQty : F64
  a : F64
  aQty : F64

/-- Modelled from the spec: the four-field `TickerData.Parse` case for
`*BinanceTicker`. The `ticker.go` snapshot under `src/` predates the
four-field `TickerData` that the current `main.go` initializes and reads
(`BidQty`, `AskQty`), so its `Parse` only fills `Bid`/`Ask`; per spec §3
and §4.3 the current decoder extracts `s`, `b`, `B`, `a`, `A` into all
four cell fields. -/
def parseBinance (m : BinanceTicker) : TickerData :=
  { Bid := m.b, Ask := m.a, BidQty := m.bQty, AskQty := m.aQty }

/-- One iteration of the `connectBinance` read loop: a read error logs and
jumps to the `RECONNECT` label with no sleep; a decoded message whose `s`
resolves in `symbolToTick` is parsed into the owned cell and its slot is
sent on the update channel; otherwise the message is dropped. -/
def binanceStep (symbolToTick : String → Option Nat) :
    SessionEvent BinanceTicker → Option (List Effect)
  | .readError => some [.logError, .redial]
  | .message m =>
      match symbolToTick m.s with
      | some tickId => some [.writeCell tickId (parseBinance m), .sendUpdate tickId]
      | none => some []

/-- OKX bbo-tbt message, after `schema.OKXTicker`: `arg.instId` plus the
`data` array, each entry carrying `bids` and `asks` levels (a level's
price/size strings abstracted to parsed values). -/
structure OKXTicker where
  instId : String
  data : List (List (List F64) × List (List F64))

/-- OKX case of `TickerData.Parse`: reads `Data[0].Bids[0][0]` and
`Data[0].Asks[0][0]` with no emptiness check on the inner arrays; `none`
models the Go index-out-of-range panic. Quantities per spec §4.3 come from
the same top level. -/
def parseOKX (m : OKXTicker) : Option TickerData := do
  let d0 ← m.data.head?
  let bid0 ← d0.1.head?
  let ask0 ← d0.2.head?
  let bid ← bid0.head?
  let ask ← ask0.head?
  pure { Bid := bid, Ask := ask, BidQty := (bid0.getD 1 (.fin 0)), AskQty := (ask0.getD 1 (.fin 0)) }

/-- One iteration of the `connectOKX` read loop: read error logs and jumps
to `RECONNECT` with no sleep; a message is processed only when `data` is
non-empty and `arg.instId` resolves. -/
def okxStep (symbolToTick : String → Option Nat) :
    SessionEvent OKXTicker → Option (List Effect)
  | .readError => some [.logError, .redial]
  | .message m =>
      if m.data.length > 0 then
        match symbolToTick m.instId with
        | some tickId =>
            match parseOKX m with
            | some t => some [.writeCell tickId t, .sendUpdate tickId]
            | none => none
        | none => some []
      else some []

/-- Bybit orderbook.1 message, after `schema.BybitTicker`: `data.s` plus
the `data.b` and `data.a` level arrays (price/size strings abstracted to
parsed values). -/
structure BybitTicker where
  dataS : String
  dataB : List (List F64)
  dataA : List (List F64)

/-- Bybit case of `TickerData.Parse`: reads `Data.B[0][0]` and
`Data.A[0][0]` with no emptiness check (both the `ticker.go` snapshot and
the earlier `schema.go` variant index unconditionally); `none` models the
Go index-out-of-range panic on an empty `b` or `a` array. Quantities per
spec §4.3 come from the same level. -/
def parseBybit (m : BybitTicker) : Option TickerData := do
  let b0 ← m.dataB.head?
  let a0 ← m.dataA.head?
  let bid ← b0.head?
  let ask ← a0.head?
  pure { Bid := bid, Ask := ask, BidQty := (b0.getD 1 (.fin 0)), AskQty := (a0.getD 1 (.fin 0)) }

/-- One iteration of the `connectBybitPartial` read loop: read error logs
and jumps to `RECONNECT`; a message whose `data.s` resolves is parsed
(panicking on empty level arrays) and its slot sent; otherwise dropped. -/
def bybitStep (symbolToTick : String → Option Nat) :
    SessionEvent BybitTicker → Option (List Effect)
  | .readError => some [.logError, .redial]
  | .message m =>
      match symbolToTick m.dataS with
      | some tickId =>
          match parseBybit m with
          | some t => some [.writeCell tickId t, .sendUpdate tickId]
          | none => none
      | none => some []

/-- A decompressed HTX frame as the `connectHTX` loop classifies it: a
`ping` control frame carrying the number under the `ping` key, a bbo tick
(with non-empty channel name when genuine), or anything else. -/
inductive HTXFrame where
  | ping : Int → HTXFrame
  | tick : String → String → F64 → F64 → F64 → F64 → HTXFrame
  | other : HTXFrame

/-- One iteration of the `connectHTX` read loop after gzip decompression:
a frame with a `ping` key is answered with a pong carrying the same value
and skipped; a tick with non-empty `ch` whose symbol resolves is parsed
into the owned cell and its slot sent; anything else is dropped. -/
def htxStep (symbolToTick : String → Option Nat) :
    SessionEvent HTXFrame → Option (List Effect)
  | .readError => some [.logError, .redial]
  | .message (.ping n) => some [.pong n]
  | .message (.tick ch sym bid ask bidSize askSize) =>
      if ch ≠ "" then
        match symbolToTick sym with
        | some tickId =>
            some [.writeCell tickId ⟨bid, ask, bidSize, askSize⟩, .sendUpdate tickId]
        | none => some []
      else some []
  | .message .other => some []

/-! Bybit sharding (`connectBybit`): the symbol list is cut into groups of
at most `MAX_SYMBOLS_PER_CONN = 10` taken in roster order; shard `k` starts
at offset `10 * k` and `connectBybitPartial` maps its `i`-th symbol to
global slot `i + offset`. -/

/-- Per-connection symbol cap in `connectBybit`. -/
def MAX_SYMBOLS_PER_CONN : Nat := 10

/-- The shard loop of `connectBybit`: successive `(group, offset)` pairs,
each group being `symbols[offset : min(offset+10, len)]`. -/
def bybitShards : List String → Nat → List (List String × Nat)
  | [], _ => []
  | x :: xs, offset =>
      ((x :: xs).take MAX_SYMBOLS_PER_CONN, offset) ::
        bybitShards ((x :: xs).drop MAX_SYMBOLS_PER_CONN) (offset + MAX_SYMBOLS_PER_CONN)
  termination_by l => l.length
  decreasing_by
    simp only [MAX_SYMBOLS_PER_CONN, List.length_drop, List.length_cons]
    omega

/-- Global lattice slots covered by one shard: `connectBybitPartial` maps
its `i`-th symbol to `i + offset`. -/
def bybitShardSlots (shard : List String × Nat) : List Nat :=
  (List.range shard.1.length).map (fun i => i + shard.2)

/-! Persistence sink (`saveToDb` in `main.go` with
`DatabaseWriter.InsertPriceIndex` in `db_writer.go`). -/

/-- One row of the `price_index` table as `InsertPriceIndex` produces it
(`time.Now()` is abstracted to the tick instant `time`). -/
structure DbRecord where
  time : Nat
  symbol : String
  price_index : F64
  num_exchanges : Int
  bid_vwap : F64
  ask_vwap : F64
  bid_qty_total : F64
  ask_qty_total : F64
deriving DecidableEq, Repr

/-- One persistence tick of `saveToDb`: iterate `symIx` over the
normalized-symbol roster row and insert a row for every slot whose current
index value is not NaN. The index vector is viewed as a `Nat`-indexed
function over the preallocated buffer. -/
def saveTick (now : Nat) (normalizedSymbols : List String)
    (indices : Nat → PriceIndexData) : List DbRecord :=
  (List.range normalizedSymbols.length).foldl
    (fun recs symIx =>
      let p := indices symIx
      if !p.Val.isNaN then
        recs ++ [{ time := now
                   symbol := normalizedSymbols.getD symIx ""
                   price_index := p.Val
                   num_exchanges := p.Cnt
                   bid_vwap := p.BidVWAP
                   ask_vwap := p.AskVWAP
                   bid_qty_total := p.BidQtyTotal
                   ask_qty_total := p.AskQtyTotal }]
      else recs)
    []

/-! Helper predicates and lemmas about the first pass. -/

/-- The row-validity test of the first pass of `UpdatePriceIndex`: all four
cell fields are non-NaN (this is the exact Go condition; it does not test
finiteness and does not look at the quantities' sum). -/
def validRow (t : TickerData) : Bool :=
  !t.Bid.isNaN && !t.Ask.isNaN && !t.BidQty.isNaN && !t.AskQty.isNaN

/-- Transcribed from the claim wording (spec §4.5 pass 1): a row contributes
when all four fields are finite and `bid_qty + ask_qty > 0`. -/
def specContribRow (t : TickerData) : Bool :=
  t.Bid.isFinite && t.Ask.isFinite && t.BidQty.isFinite && t.AskQty.isFinite &&
    F64.lt (.fin 0) (t.BidQty.add t.AskQty)

lemma pass1Step_numValid (w : Fin NUM_EXCHANGES → F64) (col : Fin NUM_EXCHANGES → TickerData)
    (acc : Pass1Acc) (i : Fin NUM_EXCHANGES) :
    (pass1Step w col acc i).numValidExchanges =
      acc.numValidExchanges + (if validRow (col i) then 1 else 0) := by
  unfold pass1Step validRow
  by_cases h : (!(col i).Bid.isNaN && !(col i).Ask.isNaN
      && !(col i).BidQty.isNaN && !(col i).AskQty.isNaN) = true
  · simp only [h, if_true]
    split <;> rfl
  · simp [h]

lemma foldl_pass1Step_numValid (w : Fin NUM_EXCHANGES → F64)
    (col : Fin NUM_EXCHANGES → TickerData) (l : List (Fin NUM_EXCHANGES)) (acc : Pass1Acc) :
    (l.foldl (pass1Step w col) acc).numValidExchanges =
      acc.numValidExchanges + ((l.filter (fun i => validRow (col i))).length : Int) := by
  induction l generalizing acc with
  | nil => simp
  | cons x xs ih =>
      rw [List.foldl_cons, ih, pass1Step_numValid, List.filter_cons]
      by_cases h : validRow (col x) = true
      · simp [h]
        omega
      · simp [eq_false_of_ne_true h]

lemma pass1_numValid (w : Fin NUM_EXCHANGES → F64) (col : Fin NUM_EXCHANGES → TickerData) :
    (pass1 w col).numValidExchanges =
      (((List.finRange NUM_EXCHANGES).filter (fun i => validRow (col i))).length : Int) := by
  rw [pass1, foldl_pass1Step_numValid]
  simp [pass1Init]

/-! F64 case lemmas used by the accumulation invariants. -/

/-- A value that is either positive infinity or finite (no NaN, no negative
infinity). Sums of such values never produce NaN. -/
def finOrPosInf (x : F64) : Prop := x = .inf true ∨ ∃ q : ℚ, x = .fin q

/-- A value that is either NaN or finite (no infinity of either sign). -/
def finOrNaN (x : F64) : Prop := x = .nan ∨ ∃ q : ℚ, x = .fin q

lemma finOrPosInf_add {x y : F64} (hx : finOrPosInf x) (hy : finOrPosInf y) :
    finOrPosInf (x.add y) := by
  rcases hx with hx | ⟨a, hx⟩ <;> rcases hy with hy | ⟨b, hy⟩ <;>
    subst hx <;> subst hy <;> simp [F64.add, finOrPosInf]

lemma finOrPosInf_of_pos_add {x y : F64} (hx : x.isNaN = false) (hy : y.isNaN = false)
    (h : F64.lt (.fin 0) (x.add y) = true) : finOrPosInf x ∧ finOrPosInf y := by
  cases x with
  | nan => simp [F64.isNaN] at hx
  | inf s =>
      cases y with
      | nan => simp [F64.isNaN] at hy
      | inf t =>
          cases s <;> cases t <;>
            simp_all [F64.add, F64.lt, finOrPosInf]
      | fin b =>
          cases s <;> simp_all [F64.add, F64.lt, finOrPosInf]
  | fin a =>
      cases y with
      | nan => simp [F64.isNaN] at hy
      | inf t => cases t <;> simp_all [F64.add, F64.lt, finOrPosInf]
      | fin b => simp [finOrPosInf]

lemma lt_zero_add_of_add {bT aT b a : F64}
    (hbT : finOrPosInf bT) (haT : finOrPosInf aT) (hb : finOrPosInf b) (ha : finOrPosInf a)
    (hpos : F64.lt (.fin 0) (b.add a) = true)
    (hprev : F64.lt (.fin 0) (bT.add aT) = true ∨ (bT = .fin 0 ∧ aT = .fin 0)) :
    F64.lt (.fin 0) ((bT.add b).add (aT.add a)) = true := by
  rcases hbT with hbT | ⟨q1, hbT⟩ <;> rcases haT with haT | ⟨q2, haT⟩ <;>
    rcases hb with hb | ⟨q3, hb⟩ <;> rcases ha with ha | ⟨q4, ha⟩ <;>
    subst hbT <;> subst haT <;> subst hb <;> subst ha <;>
    simp_all [F64.add, F64.lt]
  rcases hprev with hprev | ⟨h1, h2⟩
  · linarith
  · subst h1
    subst h2
    linarith

/-- Invariant of the first pass: the quantity totals never become NaN or
negative infinity, and either some row has already contributed (making the
combined total positive) or nothing has (all three accumulators still 0). -/
def inv3 (acc : Pass1Acc) : Prop :=
  finOrPosInf acc.bidQtyTotal ∧ finOrPosInf acc.askQtyTotal ∧
    (F64.lt (.fin 0) (acc.bidQtyTotal.add acc.askQtyTotal) = true ∨
      (acc.bidQtyTotal = .fin 0 ∧ acc.askQtyTotal = .fin 0 ∧ acc.totalWeight = .fin 0))

lemma pass1Step_inv3 (w : Fin NUM_EXCHANGES → F64) (col : Fin NUM_EXCHANGES → TickerData)
    (acc : Pass1Acc) (i : Fin NUM_EXCHANGES) (h : inv3 acc) : inv3 (pass1Step w col acc i) := by
  obtain ⟨hb, ha, hor⟩ := h
  unfold pass1Step
  by_cases hv : (!(col i).Bid.isNaN && !(col i).Ask.isNaN
      && !(col i).BidQty.isNaN && !(col i).AskQty.isNaN) = true
  · simp only [hv, if_true]
    by_cases hq : F64.lt (.fin 0) ((col i).BidQty.add (col i).AskQty) = true
    · simp only [hq, if_true]
      have hnn : (col i).BidQty.isNaN = false ∧ (col i).AskQty.isNaN = false := by
        simp only [Bool.and_eq_true, Bool.not_eq_true'] at hv
        exact ⟨hv.1.2, hv.2⟩
      obtain ⟨hfb, hfa⟩ := finOrPosInf_of_pos_add hnn.1 hnn.2 hq
      refine ⟨finOrPosInf_add hb hfb, finOrPosInf_add ha hfa, Or.inl ?_⟩
      refine lt_zero_add_of_add hb ha hfb hfa hq ?_
      rcases hor with hlt | ⟨h1, h2, _⟩
      · exact Or.inl hlt
      · exact Or.inr ⟨h1, h2⟩
    · simp only [eq_false_of_ne_true hq, Bool.false_eq_true, if_false]
      exact ⟨hb, ha, hor⟩
  · simp only [eq_false_of_ne_true hv, Bool.false_eq_true, if_false]
    exact ⟨hb, ha, hor⟩

lemma pass1_inv3 (w : Fin NUM_EXCHANGES → F64) (col : Fin NUM_EXCHANGES → TickerData) :
    inv3 (pass1 w col) := by
  rw [pass1]
  have hinit : inv3 pass1Init := by
    refine ⟨Or.inr ⟨0, rfl⟩, Or.inr ⟨0, rfl⟩, Or.inr ⟨rfl, rfl, rfl⟩⟩
  generalize pass1Init = acc at hinit ⊢
  induction (List.finRange NUM_EXCHANGES) generalizing acc with
  | nil => exact hinit
  | cons x xs ih => exact ih _ (pass1Step_inv3 w col acc x hinit)

/-! Invariant of the first pass used for the weight-adaptation analysis:
when every quantity field in the column is finite (or NaN), the totals stay
finite and every recorded per-exchange liquidity is positive and bounded by
the combined total. -/

/-- Accumulator facts needed to show the EMA share is a positive finite
ratio: finite totals with non-negative sum, and every `qtyPerExchange`
entry either zero or positive and at most the combined total. -/
def inv6 (acc : Pass1Acc) : Prop :=
  ∃ b a : ℚ, acc.bidQtyTotal = .fin b ∧ acc.askQtyTotal = .fin a ∧ 0 ≤ b + a ∧
    ∀ i, acc.qtyPerExchange i = .fin 0 ∨
      ∃ q : ℚ, 0 < q ∧ acc.qtyPerExchange i = .fin q ∧ q ≤ b + a

lemma pass1Step_inv6 (w : Fin NUM_EXCHANGES → F64) (col : Fin NUM_EXCHANGES → TickerData)
    (acc : Pass1Acc) (i : Fin NUM_EXCHANGES)
    (hcol : finOrNaN (col i).BidQty ∧ finOrNaN (col i).AskQty)
    (h : inv6 acc) : inv6 (pass1Step w col acc i) := by
  obtain ⟨b, a, hb, ha, hba, hq⟩ := h
  unfold pass1Step
  by_cases hv : (!(col i).Bid.isNaN && !(col i).Ask.isNaN
      && !(col i).BidQty.isNaN && !(col i).AskQty.isNaN) = true
  · simp only [hv, if_true]
    by_cases hpos : F64.lt (.fin 0) ((col i).BidQty.add (col i).AskQty) = true
    · simp only [hpos, if_true]
      have hnn : (col i).BidQty.isNaN = false ∧ (col i).AskQty.isNaN = false := by
        simp only [Bool.and_eq_true, Bool.not_eq_true'] at hv
        exact ⟨hv.1.2, hv.2⟩
      obtain ⟨q1, hq1⟩ : ∃ q1 : ℚ, (col i).BidQty = .fin q1 := by
        rcases hcol.1 with hnan | hfin
        · rw [hnan] at hnn
          simp [F64.isNaN] at hnn
        · exact hfin
      obtain ⟨q2, hq2⟩ : ∃ q2 : ℚ, (col i).AskQty = .fin q2 := by
        rcases hcol.2 with hnan | hfin
        · rw [hnan] at hnn
          simp [F64.isNaN] at hnn
        · exact hfin
      have hsum : 0 < q1 + q2 := by
        rw [hq1, hq2] at hpos
        simpa [F64.add, F64.lt] using hpos
      refine ⟨b + q1, a + q2, ?_, ?_, by linarith, ?_⟩
      · simp [hb, hq1, F64.add]
      · simp [ha, hq2, F64.add]
      · intro k
        by_cases hk : k = i
        · subst hk
          right
          refine ⟨q1 + q2, hsum, ?_, by linarith⟩
          simp [hq1, hq2, F64.add, Function.update_same]
        · rcases hq k with hz | ⟨q, hq0, hqv, hqle⟩
          · left
            simpa [Function.update_noteq hk] using hz
          · right
            refine ⟨q, hq0, ?_, by linarith⟩
            simpa [Function.update_noteq hk] using hqv
    · simp only [eq_false_of_ne_true hpos, Bool.false_eq_true, if_false]
      refine ⟨b, a, hb, ha, hba, ?_⟩
      intro k
      by_cases hk : k = i
      · subst hk
        left
        simp [Function.update_same]
      · rcases hq k with hz | ⟨q, hq0, hqv, hqle⟩
        · left
          simpa [Function.update_noteq hk] using hz
        · right
          exact ⟨q, hq0, by simpa [Function.update_noteq hk] using hqv, hqle⟩
  · simp only [eq_false_of_ne_true hv, Bool.false_eq_true, if_false]
    refine ⟨b, a, hb, ha, hba, ?_⟩
    intro k
    by_cases hk : k = i
    · subst hk
      left
      simp [Function.update_same]
    · rcases hq k with hz | ⟨q, hq0, hqv, hqle⟩
      · left
        simpa [Function.update_noteq hk] using hz
      · right
        exact ⟨q, hq0, by simpa [Function.update_noteq hk] using hqv, hqle⟩

lemma pass1_inv6 (w : Fin NUM_EXCHANGES → F64) (col : Fin NUM_EXCHANGES → TickerData)
    (hcol : ∀ i, finOrNaN (col i).BidQty ∧ finOrNaN (col i).AskQty) :
    inv6 (pass1 w col) := by
  rw [pass1]
  have hinit : inv6 pass1Init := by
    exact ⟨0, 0, rfl, rfl, by norm_num, fun i => Or.inl rfl⟩
  generalize pass1Init = acc at hinit ⊢
  induction (List.finRange NUM_EXCHANGES) generalizing acc with
  | nil => exact hinit
  | cons x xs ih => exact ih _ (pass1Step_inv6 w col acc x (hcol x) hinit)

/-! Concrete lattice states used to instantiate the claim theorems. -/

/-- A normally contributing cell: finite fields, positive quantities. -/
def tContrib : TickerData := ⟨.fin 1, .fin 2, .fin 1, .fin 1⟩

/-- A cell with non-NaN fields but zero total quantity. -/
def tZeroQty : TickerData := ⟨.fin 1, .fin 2, .fin 0, .fin 0⟩

/-- A contributing cell whose bid quantity is zero (ask side carries it). -/
def tZeroBidQty : TickerData := ⟨.fin 5, .fin 6, .fin 0, .fin 1⟩

/-- A cell with an infinite bid quantity (reachable: `strconv.ParseFloat`
returns `+Inf` for the input `"Inf"` with a nil error, and the decoders
discard the error in any case, so `"1e999"` also lands here). -/
def tInfQty : TickerData := ⟨.fin 1, .fin 2, .inf true, .fin 1⟩

/-- A previous index slot with distinguishable field values. -/
def piPrev : PriceIndexData := ⟨.fin 7, 3, .fin 8, .fin 9, .fin 10, .fin 11⟩

/-- Layout whose column 0 has one contributing row (Binance) and one
non-NaN row with zero quantities (Bybit). -/
def shmC2 : ShmLayout :=
  { Tickers := fun i j =>
      if j = 0 then (if i = 0 then tContrib else if i = 1 then tZeroQty else nanTicker)
      else nanTicker
    PriceIndices := fun _ => piPrev }

/-- Layout with an all-NaN lattice. -/
def shmNaN : ShmLayout := { Tickers := fun _ _ => nanTicker, PriceIndices := fun _ => piPrev }

/-- Column with a single contributing row whose bid quantity is zero. -/
def colZeroBid : Fin NUM_EXCHANGES → TickerData := fun i => if i = 0 then tZeroBidQty else nanTicker

/-- Column with a single row carrying an infinite bid quantity. -/
def colInfQty : Fin NUM_EXCHANGES → TickerData := fun i => if i = 0 then tInfQty else nanTicker

/-- Column with a single normally contributing row. -/
def colOne : Fin NUM_EXCHANGES → TickerData := fun i => if i = 0 then tContrib else nanTicker

/-! Claim C2. -/

/-- C2, counterexample: in `shmC2`, row 1 has all four fields non-NaN but
`bid_qty + ask_qty == 0`; the code still counts it (`Cnt = 2`), while the
claim's condition (all finite and positive total quantity) holds for only
one row, so the committed count differs from the claim's count. -/
theorem updatePriceIndex_cnt_counts_zero_qty_row :
    ((UpdatePriceIndex shmC2 initWeights 0).1.PriceIndices 0).Cnt ≠
      (((List.finRange NUM_EXCHANGES).filter
          (fun i => specContribRow (shmC2.Tickers i 0))).length : Int) := by
  with_unfolding_all decide

/-- C2, amended: when the recompute commits (`total_weight > 0`),
`indices[j].count` equals the number of exchange rows whose four cell
fields are all non-NaN — rows with zero `bid_qty + ask_qty` or with
infinite fields are included; only the price/quantity accumulation skips
zero-total rows. -/
theorem updatePriceIndex_cnt_eq_nonNaN_rows (s : ShmLayout)
    (w : Fin NUM_SYMBOLS → Fin NUM_EXCHANGES → F64) (j : Fin NUM_SYMBOLS)
    (h : F64.lt (.fin 0) (pass1 (w j) (fun i => s.Tickers i j)).totalWeight = true) :
    ((UpdatePriceIndex s w j).1.PriceIndices j).Cnt =
      (((List.finRange NUM_EXCHANGES).filter
          (fun i => validRow (s.Tickers i j))).length : Int) := by
  unfold UpdatePriceIndex commit
  simp only [Function.update_same, h, if_true]
  exact pass1_numValid _ _

/-- C2, witness: the amended count theorem applied to `shmC2` at slot 0. -/
theorem updatePriceIndex_cnt_eq_nonNaN_rows_witness :
    ((UpdatePriceIndex shmC2 initWeights 0).1.PriceIndices 0).Cnt =
      (((List.finRange NUM_EXCHANGES).filter
          (fun i => validRow (shmC2.Tickers i 0))).length : Int) :=
  updatePriceIndex_cnt_eq_nonNaN_rows shmC2 initWeights 0 (by with_unfolding_all decide)

/-! Claim C3. -/

/-- C3, counterexample: with a single contributing row whose bid quantity
is zero, the accumulation ends with `total_weight > 0` and
`bid_qty_total == 0` — the claimed impossibility does occur — and the
commit path computes `bid_vwap = 0/0 = NaN`; nothing panics and no
assertion exists in `UpdatePriceIndex`. -/
theorem pass1_totalWeight_pos_with_zero_bidQtyTotal :
    F64.lt (.fin 0) (pass1 defaultWeights colZeroBid).totalWeight = true ∧
    (pass1 defaultWeights colZeroBid).bidQtyTotal = .fin 0 ∧
    (commit (pass1 defaultWeights colZeroBid) piPrev).BidVWAP = .nan := by
  with_unfolding_all decide

/-- C3, amended: what does hold after the accumulation pass is that
`total_weight > 0` forces `bid_qty_total + ask_qty_total > 0` (every
contributing row adds a positive combined quantity), so the pass-2 share
denominator is safe; `bid_qty_total` alone can be zero, in which case the
unguarded commit computes `bid_vwap = 0/0 = NaN` per IEEE semantics, and
the implementation contains no assertion. -/
theorem pass1_totalWeight_pos_imp_qty_sum_pos (w : Fin NUM_EXCHANGES → F64)
    (col : Fin NUM_EXCHANGES → TickerData)
    (h : F64.lt (.fin 0) (pass1 w col).totalWeight = true) :
    F64.lt (.fin 0) ((pass1 w col).bidQtyTotal.add (pass1 w col).askQtyTotal) = true := by
  obtain ⟨hb, ha, hor⟩ := pass1_inv3 w col
  rcases hor with hlt | ⟨h1, h2, h3⟩
  · exact hlt
  · rw [h3] at h
    simp [F64.lt] at h

/-- C3, witness: the combined-quantity positivity applied to the
zero-bid-quantity column. -/
theorem pass1_totalWeight_pos_imp_qty_sum_pos_witness :
    F64.lt (.fin 0)
      ((pass1 defaultWeights colZeroBid).bidQtyTotal.add
        (pass1 defaultWeights colZeroBid).askQtyTotal) = true :=
  pass1_totalWeight_pos_imp_qty_sum_pos defaultWeights colZeroBid (by with_unfolding_all decide)

/-! Claim C7. -/

/-- C7: when the recompute finds no contributing row
(`total_weight > 0` fails), `UpdatePriceIndex` writes `Val := NaN` into
`indices[j]` and leaves its `Cnt`, VWAPs and quantity totals at their
previous values, and every other index slot is untouched. -/
theorem updatePriceIndex_nan_branch_frame (s : ShmLayout)
    (w : Fin NUM_SYMBOLS → Fin NUM_EXCHANGES → F64) (j : Fin NUM_SYMBOLS)
    (h : F64.lt (.fin 0) (pass1 (w j) (fun i => s.Tickers i j)).totalWeight = false) :
    (UpdatePriceIndex s w j).1.PriceIndices j = { s.PriceIndices j with Val := .nan } ∧
    ∀ k, k ≠ j → (UpdatePriceIndex s w j).1.PriceIndices k = s.PriceIndices k := by
  constructor
  · unfold UpdatePriceIndex commit
    simp only [Function.update_same, h]
    simp
  · intro k hk
    unfold UpdatePriceIndex
    simp [Function.update_noteq hk]

/-- C7, witness: the NaN-branch frame property on the all-NaN lattice,
checked at slot 0 and at the untouched slot 5. -/
theorem updatePriceIndex_nan_branch_frame_witness :
    (UpdatePriceIndex shmNaN initWeights 0).1.PriceIndices 0 =
      { shmNaN.PriceIndices 0 with Val := .nan } ∧
    (UpdatePriceIndex shmNaN initWeights 0).1.PriceIndices 5 = shmNaN.PriceIndices 5 :=
  ⟨(updatePriceIndex_nan_branch_frame shmNaN initWeights 0 (by with_unfolding_all decide)).1,
   (updatePriceIndex_nan_branch_frame shmNaN initWeights 0
      (by with_unfolding_all decide)).2 5 (by decide)⟩

/-! Claim C6. -/

/-- Layout whose column 0 carries an infinite bid quantity in row 0. -/
def shmInf : ShmLayout :=
  { Tickers := fun i j => if j = 0 then colInfQty i else nanTicker
    PriceIndices := fun _ => piPrev }

/-- C6, counterexample: with an infinite bid quantity in a lattice cell
(`ParseFloat` produces `+Inf` for the wire string `"Inf"`, and parse errors
are discarded so `"1e999"` lands here too), the row passes the non-NaN
guard, `qty_per_exch = bid_qty_total = +Inf`, the share is
`Inf / Inf = NaN`, and the EMA drives the weight to NaN — not finite. -/
theorem ema_weight_nan_on_infinite_qty :
    (UpdatePriceIndex shmInf initWeights 0).2 0 0 = F64.nan := by
  with_unfolding_all decide

/-- C6, amended: the EMA update preserves positive finite weights provided
every quantity field in the lattice column is finite or NaN (no infinity):
each applied share is then a positive finite ratio bounded by 1 and
`weight = 0.99 * weight + 0.01 * share` stays positive and finite. With an
infinite quantity the share degenerates to NaN and so does the weight. -/
theorem ema_weights_stay_pos_finite_on_finite_qty (s : ShmLayout)
    (w : Fin NUM_SYMBOLS → Fin NUM_EXCHANGES → F64) (j : Fin NUM_SYMBOLS)
    (hw : ∀ i, ∃ q : ℚ, 0 < q ∧ w j i = .fin q)
    (hcol : ∀ i, finOrNaN (s.Tickers i j).BidQty ∧ finOrNaN (s.Tickers i j).AskQty) :
    ∀ i, ∃ q : ℚ, 0 < q ∧ (UpdatePriceIndex s w j).2 j i = .fin q := by
  intro i
  obtain ⟨b, a, hb, ha, hba, hq⟩ := pass1_inv6 (w j) (fun k => s.Tickers k j) hcol
  unfold UpdatePriceIndex
  simp only [Function.update_same]
  unfold pass2
  rcases hq i with hz | ⟨q, hq0, hqv, hqle⟩
  · rw [hz]
    simp only [F64.lt]
    simp only [decide_eq_true_eq, lt_self_iff_false, if_false]
    exact hw i
  · obtain ⟨wq, hwq0, hwq⟩ := hw i
    have hden : (0:ℚ) < b + a := lt_of_lt_of_le hq0 hqle
    rw [hqv, hb, ha, hwq]
    have hcond : F64.lt (.fin 0) (F64.fin q) = true := by
      simp [F64.lt, hq0]
    rw [if_pos hcond]
    have hdiv : (F64.fin q).div ((F64.fin b).add (F64.fin a)) = .fin (q / (b + a)) := by
      simp [F64.add, F64.div, hden.ne']
    rw [hdiv]
    refine ⟨99/100 * wq + 1/100 * (q / (b + a)), ?_, ?_⟩
    · have h1 : (0:ℚ) < 99/100 * wq := by positivity
      have h2 : (0:ℚ) < 1/100 * (q / (b + a)) := by positivity
      linarith
    · simp [F64.mul, F64.add]

/-- C6, witness: the EMA positivity theorem applied to `shmC2` with the
default weight matrix, read back at the Binance entry. -/
theorem ema_weights_stay_pos_finite_on_finite_qty_witness :
    ∃ q : ℚ, 0 < q ∧ (UpdatePriceIndex shmC2 initWeights 0).2 0 0 = .fin q :=
  ema_weights_stay_pos_finite_on_finite_qty shmC2 initWeights 0
    (by
      intro i
      fin_cases i <;> exact ⟨_, by with_unfolding_all decide, rfl⟩)
    (by
      intro i
      fin_cases i <;>
        first
          | exact ⟨Or.inr ⟨_, rfl⟩, Or.inr ⟨_, rfl⟩⟩
          | exact ⟨Or.inl rfl, Or.inl rfl⟩)
    0

/-! Claim C1. -/

/-- A symbol map resolving only the subscribed symbol to slot 0. -/
def oneSymbolMap : String → Option Nat :=
  fun s => if s = "BTCUSDT" then some 0 else none

/-- A concrete Binance frame with distinct values in all four fields. -/
def binanceMsg : BinanceTicker :=
  { s := "BTCUSDT", b := .fin 60000, bQty := .fin 3, a := .fin 60001, aQty := .fin 4 }

/-- A lattice row whose cell 0 holds stale values in all four fields. -/
def staleRow : Nat → TickerData := fun _ => ⟨.fin 1, .fin 1, .fin 1, .fin 1⟩

/-- C1: for a Binance message whose symbol resolves to a slot, one loop
iteration performs exactly a cell write followed by an update-channel send
of that slot; the written cell carries all four fields of the message —
in particular `BidQty`/`AskQty` come from the size fields `B`/`A` and are
not left at the cell's previous values. -/
theorem binance_session_writes_all_fields_then_publishes
    (f : String → Option Nat) (m : BinanceTicker) (slot : Nat) (lat : Nat → TickerData)
    (h : f m.s = some slot) :
    binanceStep f (.message m) =
      some [.writeCell slot { Bid := m.b, Ask := m.a, BidQty := m.bQty, AskQty := m.aQty },
            .sendUpdate slot] ∧
    applyEffects lat
        [.writeCell slot { Bid := m.b, Ask := m.a, BidQty := m.bQty, AskQty := m.aQty },
         .sendUpdate slot] slot =
      { Bid := m.b, Ask := m.a, BidQty := m.bQty, AskQty := m.aQty } := by
  constructor
  · simp [binanceStep, h, parseBinance]
  · simp [applyEffects, applyEffect, Function.update_same]

/-- C1, witness: the output contract applied to a concrete frame over a
stale lattice row. -/
theorem binance_session_writes_all_fields_then_publishes_witness :
    binanceStep oneSymbolMap (.message binanceMsg) =
      some [.writeCell 0 { Bid := .fin 60000, Ask := .fin 60001,
                           BidQty := .fin 3, AskQty := .fin 4 },
            .sendUpdate 0] ∧
    applyEffects staleRow
        [.writeCell 0 { Bid := .fin 60000, Ask := .fin 60001,
                        BidQty := .fin 3, AskQty := .fin 4 },
         .sendUpdate 0] 0 =
      { Bid := .fin 60000, Ask := .fin 60001, BidQty := .fin 3, AskQty := .fin 4 } :=
  binance_session_writes_all_fields_then_publishes oneSymbolMap binanceMsg 0 staleRow rfl

/-! Claim C4. -/

/-- Transcribed from the claim wording: whenever a fault leads to a
re-dial, the effect trace must contain a backoff sleep of at least two
seconds. -/
def specBackoffOk (effs : List Effect) : Prop :=
  Effect.redial ∈ effs → ∃ ms, 2000 ≤ ms ∧ Effect.sleepMs ms ∈ effs

/-- C4, counterexample: the Binance read-error transition re-dials with no
sleep effect at all — `goto RECONNECT` follows the error log immediately —
so the claimed two-second backoff is absent. -/
theorem read_error_reconnects_without_backoff :
    binanceStep oneSymbolMap .readError = some [Effect.logError, Effect.redial] ∧
    ¬ specBackoffOk [Effect.logError, Effect.redial] := by
  refine ⟨rfl, ?_⟩
  intro h
  obtain ⟨ms, _, hmem⟩ := h (by simp)
  simp at hmem

/-- C4, amended: on a read error while streaming the session does not
terminate; it logs and immediately re-dials, with no backoff sleep (the
spec's two-second backoff is absent from the code), and it performs no
lattice write, so the cells it owns retain their last observed values
across the reconnect. -/
theorem read_error_immediate_redial_lattice_retained :
    ∀ (f g : String → Option Nat) (lat : Nat → TickerData),
      binanceStep f .readError = some [Effect.logError, Effect.redial] ∧
      okxStep g .readError = some [Effect.logError, Effect.redial] ∧
      applyEffects lat [Effect.logError, Effect.redial] = lat :=
  fun _ _ _ => ⟨rfl, rfl, rfl⟩

/-! Claim C5. -/

/-- C5: a Bybit message carrying a subscribed symbol with an empty `data.b`
(or `data.a`) array is not dropped — the parse unconditionally indexes
`Data.B[0][0]`/`Data.A[0][0]`, so the loop body panics (`none`), contrary
to the documented drop condition. -/
theorem bybit_empty_levels_on_subscribed_symbol_panics :
    bybitStep oneSymbolMap
        (.message { dataS := "BTCUSDT", dataB := [], dataA := [[.fin 1, .fin 1]] }) = none ∧
    bybitStep oneSymbolMap
        (.message { dataS := "BTCUSDT", dataB := [[.fin 1, .fin 1]], dataA := [] }) = none := by
  exact ⟨rfl, rfl⟩

/-! Claim C8. -/

/-- C8: a decompressed HTX frame carrying a `ping` key is answered by
exactly one pong effect with the same value — no cell write, no
update-channel send — and the lattice row is unchanged. -/
theorem htx_ping_answered_with_pong_only :
    ∀ (f : String → Option Nat) (n : Int) (lat : Nat → TickerData),
      htxStep f (.message (.ping n)) = some [Effect.pong n] ∧
      applyEffects lat [Effect.pong n] = lat :=
  fun _ _ _ => ⟨rfl, rfl⟩

/-! Claim C9: lemmas about the shard loop. -/

lemma bybitShards_nil (off : Nat) : bybitShards [] off = [] := by
  rw [bybitShards]

lemma bybitShards_ne_nil (l : List String) (off : Nat) (h : l ≠ []) :
    bybitShards l off =
      (l.take MAX_SYMBOLS_PER_CONN, off) ::
        bybitShards (l.drop MAX_SYMBOLS_PER_CONN) (off + MAX_SYMBOLS_PER_CONN) := by
  cases l with
  | nil => exact absurd rfl h
  | cons x xs => rw [bybitShards]

lemma bybitShards_flatten (l : List String) (off : Nat) :
    ((bybitShards l off).map Prod.fst).flatten = l := by
  induction l, off using bybitShards.induct with
  | case1 off => simp [bybitShards_nil]
  | case2 x xs off ih =>
      rw [bybitShards_ne_nil _ _ (by simp)]
      simp only [List.map_cons, List.flatten_cons]
      rw [ih]
      exact List.take_append_drop _ _

lemma bybitShards_length (l : List String) (off : Nat) :
    (bybitShards l off).length = (l.length + 9) / 10 := by
  induction l, off using bybitShards.induct with
  | case1 off => simp [bybitShards_nil]
  | case2 x xs off ih =>
      rw [bybitShards_ne_nil _ _ (by simp)]
      simp only [List.length_cons, ih, List.length_drop]
      simp only [MAX_SYMBOLS_PER_CONN, List.length_cons]
      omega

lemma bybitShards_sizes (l : List String) (off : Nat) :
    ∀ p ∈ bybitShards l off, p.1.length ≤ MAX_SYMBOLS_PER_CONN := by
  induction l, off using bybitShards.induct with
  | case1 off => simp [bybitShards_nil]
  | case2 x xs off ih =>
      rw [bybitShards_ne_nil _ _ (by simp)]
      intro p hp
      rcases List.mem_cons.mp hp with hp | hp
      · subst hp
        rw [List.length_take]
        exact min_le_left _ _
      · exact ih p hp

/-- C9: for a Bybit symbol list of size 25 the shard loop produces exactly
three subconnections with sizes 10, 10, 5 and offsets 0, 10, 20; their
global slot sets are 0..9, 10..19 and 20..24 via the per-shard map
`i ↦ i + offset`, and the shards concatenate back to the roster-order
symbol list (so the groups are disjoint and in order). In general a list
of size n yields `ceil(n/10)` shards of at most 10 symbols each. -/
theorem bybit_sharding_sizes_offsets_slots :
    (∀ syms : List String, syms.length = 25 →
        (bybitShards syms 0).map (fun p => (p.1.length, p.2)) = [(10, 0), (10, 10), (5, 20)] ∧
        (bybitShards syms 0).map bybitShardSlots =
          [[0, 1, 2, 3, 4, 5, 6, 7, 8, 9],
           [10, 11, 12, 13, 14, 15, 16, 17, 18, 19],
           [20, 21, 22, 23, 24]] ∧
        ((bybitShards syms 0).map Prod.fst).flatten = syms) ∧
    (∀ syms : List String,
        (bybitShards syms 0).length = (syms.length + 9) / 10 ∧
        ∀ p ∈ bybitShards syms 0, p.1.length ≤ MAX_SYMBOLS_PER_CONN) := by
  constructor
  · intro syms h
    have h0 : syms ≠ [] := by
      intro e
      rw [e] at h
      simp at h
    have hl1 : (syms.drop MAX_SYMBOLS_PER_CONN).length = 15 := by
      simp [List.length_drop, h, MAX_SYMBOLS_PER_CONN]
    have h1 : syms.drop MAX_SYMBOLS_PER_CONN ≠ [] := by
      intro e
      rw [e] at hl1
      simp at hl1
    have hl2 : ((syms.drop MAX_SYMBOLS_PER_CONN).drop MAX_SYMBOLS_PER_CONN).length = 5 := by
      simp [List.length_drop, h, MAX_SYMBOLS_PER_CONN]
    have h2 : (syms.drop MAX_SYMBOLS_PER_CONN).drop MAX_SYMBOLS_PER_CONN ≠ [] := by
      intro e
      rw [e] at hl2
      simp at hl2
    have hl3 :
        (((syms.drop MAX_SYMBOLS_PER_CONN).drop MAX_SYMBOLS_PER_CONN).drop
          MAX_SYMBOLS_PER_CONN).length = 0 := by
      simp [List.length_drop, h, MAX_SYMBOLS_PER_CONN]
    have h3 :
        ((syms.drop MAX_SYMBOLS_PER_CONN).drop MAX_SYMBOLS_PER_CONN).drop
          MAX_SYMBOLS_PER_CONN = [] :=
      List.eq_nil_of_length_eq_zero hl3
    rw [bybitShards_ne_nil _ _ h0, bybitShards_ne_nil _ _ h1, bybitShards_ne_nil _ _ h2,
      h3, bybitShards_nil]
    refine ⟨?_, ?_, ?_⟩
    · simp [List.length_take, h, hl1, hl2, MAX_SYMBOLS_PER_CONN]
    · simp only [List.map_cons, List.map_nil, bybitShardSlots, List.length_take, h, hl1, hl2]
      simp [MAX_SYMBOLS_PER_CONN]
      decide
    · simp only [List.map_cons, List.map_nil, List.flatten_cons, List.flatten_nil,
        List.append_nil]
      rw [List.take_of_length_le
          (show ((syms.drop MAX_SYMBOLS_PER_CONN).drop MAX_SYMBOLS_PER_CONN).length ≤
              MAX_SYMBOLS_PER_CONN by rw [hl2]; decide),
        List.take_append_drop, List.take_append_drop]
  · intro syms
    exact ⟨bybitShards_length syms 0, bybitShards_sizes syms 0⟩

/-- C9, witness: the 25-symbol shape applied to a concrete roster. -/
theorem bybit_sharding_sizes_offsets_slots_witness :
    (bybitShards (List.replicate 25 "s") 0).map (fun p => (p.1.length, p.2)) =
        [(10, 0), (10, 10), (5, 20)] ∧
    (bybitShards (List.replicate 25 "s") 0).map bybitShardSlots =
        [[0, 1, 2, 3, 4, 5, 6, 7, 8, 9],
         [10, 11, 12, 13, 14, 15, 16, 17, 18, 19],
         [20, 21, 22, 23, 24]] ∧
    ((bybitShards (List.replicate 25 "s") 0).map Prod.fst).flatten = List.replicate 25 "s" :=
  bybit_sharding_sizes_offsets_slots.1 (List.replicate 25 "s") (by simp)

/-! Claim C10. -/

lemma foldl_if_append_eq_filterMap {α β : Type} (c : α → Bool) (g : α → β)
    (l : List α) (acc : List β) :
    l.foldl (fun r x => if c x then r ++ [g x] else r) acc =
      acc ++ l.filterMap (fun x => if c x then some (g x) else none) := by
  induction l generalizing acc with
  | nil => simp
  | cons x xs ih =>
      by_cases h : c x = true
      · simp [h, ih]
      · simp [eq_false_of_ne_true h, ih]

/-- Transcribed from the claim wording: emit one record exactly for the
slots whose current index value is finite (`isFinite`). -/
def specSaveTick (now : Nat) (normalizedSymbols : List String)
    (indices : Nat → PriceIndexData) : List DbRecord :=
  (List.range normalizedSymbols.length).filterMap fun j =>
    let p := indices j
    if p.Val.isFinite then
      some { time := now
             symbol := normalizedSymbols.getD j ""
             price_index := p.Val
             num_exchanges := p.Cnt
             bid_vwap := p.BidVWAP
             ask_vwap := p.AskVWAP
             bid_qty_total := p.BidQtyTotal
             ask_qty_total := p.AskQtyTotal }
    else none

/-- An index vector whose value is positive infinity everywhere. -/
def idxInf : Nat → PriceIndexData := fun _ => ⟨.inf true, 3, .fin 1, .fin 1, .fin 1, .fin 1⟩

/-- C10, counterexample: a slot whose index value is `+Inf` is not finite,
yet the sink's guard is only `!IsNaN(val)`, so the code emits a record
where the claim says none is emitted. -/
theorem saveTick_emits_non_finite_val :
    saveTick 0 ["BTCUSDT"] idxInf ≠ specSaveTick 0 ["BTCUSDT"] idxInf := by
  with_unfolding_all decide

/-- C10, amended: on each tick the sink walks every roster slot in order
and emits one record — tick time, roster-row-0 symbol name, val, count and
the two VWAPs and quantity totals — exactly for the slots whose current
value is not NaN (an infinite value is also emitted); emission is a pure
function of the current state, so an unchanged finite slot is re-emitted
on every tick. -/
theorem saveTick_emits_iff_not_nan (now : Nat) (syms : List String)
    (idx : Nat → PriceIndexData) :
    saveTick now syms idx =
      (List.range syms.length).filterMap (fun j =>
        if !(idx j).Val.isNaN then
          some { time := now
                 symbol := syms.getD j ""
                 price_index := (idx j).Val
                 num_exchanges := (idx j).Cnt
                 bid_vwap := (idx j).BidVWAP
                 ask_vwap := (idx j).AskVWAP
                 bid_qty_total := (idx j).BidQtyTotal
                 ask_qty_total := (idx j).AskQtyTotal }
        else none) := by
  unfold saveTick
  rw [foldl_if_append_eq_filterMap (fun j => !(idx j).Val.isNaN)]
  simp

end PriceIx
